import Mathlib

/- Shallow embedding of the kra-connect request-control layer.

   Source files embedded:
   - config.py: RetryConfig (backoff schedule), CacheConfig, RateLimitConfig.
   - rate_limiter.py: TokenBucketRateLimiter, SlidingWindowRateLimiter.
   - cache.py: MemoryCacheBackend, CacheEntry, CacheManager.
   - http_client.py: HttpClient.post together with _handle_response.
   - client.py: KraClient.verify_pin orchestration.

   Modelling conventions: Python floats and wall-clock instants are rationals;
   each iteration of a blocking acquire loop observes the clock once, so a run
   of the loop is parameterized by the list of successive clock readings; a
   call that has not returned when the reading list is exhausted is `none`.
   External collaborators (the HTTP transport, the input validator, the md5
   digest of hashlib) are parameters of the embedding, as the spec treats
   them as outside the core. -/

namespace KraConnect

/-- config.py RetryConfig: the backoff-schedule configuration dataclass. -/
structure RetryConfig where
  max_attempts : ℕ
  initial_delay : ℚ
  max_delay : ℚ
  exponential_base : ℚ
  retry_on_timeout : Bool
  retry_on_rate_limit : Bool

/-- The constraints enforced by RetryConfig.__post_init__. -/
def RetryConfig.Valid (c : RetryConfig) : Prop :=
  1 ≤ c.max_attempts ∧ 0 < c.initial_delay ∧ c.initial_delay ≤ c.max_delay ∧
    1 < c.exponential_base

/-- The jitter-free delay computed inside RetryConfig.get_delay:
min of initial_delay times exponential_base to the attempt, and max_delay. -/
def RetryConfig.rawDelay (c : RetryConfig) (attempt : ℕ) : ℚ :=
  min (c.initial_delay * c.exponential_base ^ attempt) c.max_delay

/-- config.py RetryConfig.get_delay. `r` is the value random.random() returned,
which lies in the half-open unit interval. The code adds jitter of a quarter of
the clamped delay scaled by (2 r - 1) and floors the result at zero. -/
def RetryConfig.get_delay (c : RetryConfig) (attempt : ℕ) (r : ℚ) : ℚ :=
  let delay := c.rawDelay attempt
  let jitter := delay * (1 / 4) * (2 * r - 1)
  max 0 (delay + jitter)

/-- A valid retry configuration with max_delay = initial_delay, on which the
jittered delay can exceed max_delay. -/
def c3cfg : RetryConfig :=
  { max_attempts := 3, initial_delay := 1, max_delay := 1, exponential_base := 2,
    retry_on_timeout := true, retry_on_rate_limit := true }

theorem c3cfg_valid : c3cfg.Valid := by
  refine ⟨by norm_num [c3cfg], by norm_num [c3cfg], by norm_num [c3cfg], by norm_num [c3cfg]⟩

/-- C3 counterexample: with initial_delay = max_delay = 1 and the random draw
r = 9/10, get_delay 0 returns 6/5, strictly above max_delay: the jitter is
applied after clamping, so the returned delay is not bounded by max_delay. -/
theorem retry_delay_exceeds_max_delay :
    c3cfg.max_delay < c3cfg.get_delay 0 (9 / 10) := by
  norm_num [c3cfg, RetryConfig.get_delay, RetryConfig.rawDelay]

/-- C3 (amended): for a valid configuration and a random draw in the unit
interval, the jittered delay is bounded by five fourths of max_delay (not by
max_delay itself); the jitter-free delay min(initial * base ^ n, max_delay) is
bounded by max_delay and is non-decreasing in the attempt index. -/
theorem retry_delay_bounds (c : RetryConfig) (hc : c.Valid) (n m : ℕ) (hnm : n ≤ m)
    (r : ℚ) (hr0 : 0 ≤ r) (hr1 : r < 1) :
    c.get_delay n r ≤ 5 / 4 * c.max_delay ∧ c.rawDelay n ≤ c.max_delay ∧
      c.rawDelay n ≤ c.rawDelay m := by
  obtain ⟨-, hinit, hle, hbase⟩ := hc
  have hbase0 : (0 : ℚ) ≤ c.exponential_base := by linarith
  have hpow : (0 : ℚ) ≤ c.initial_delay * c.exponential_base ^ n :=
    mul_nonneg hinit.le (pow_nonneg hbase0 n)
  have hmax0 : (0 : ℚ) ≤ c.max_delay := le_trans hinit.le hle
  have hd0 : 0 ≤ c.rawDelay n := le_min hpow hmax0
  have hdmax : c.rawDelay n ≤ c.max_delay := min_le_right _ _
  refine ⟨?_, hdmax, ?_⟩
  · have hj : c.rawDelay n + c.rawDelay n * (1 / 4) * (2 * r - 1) ≤ 5 / 4 * c.rawDelay n := by
      nlinarith [hd0, hr1]
    have : c.get_delay n r ≤ 5 / 4 * c.rawDelay n := by
      simp only [RetryConfig.get_delay]
      exact max_le (by nlinarith [hd0]) hj
    linarith [this, hdmax, hd0]
  · unfold RetryConfig.rawDelay
    have : c.exponential_base ^ n ≤ c.exponential_base ^ m :=
      pow_le_pow_right₀ (by linarith) hnm
    exact min_le_min (by nlinarith [hinit.le]) le_rfl

/-- Witness for retry_delay_bounds at a concrete valid configuration. -/
theorem retry_delay_bounds_witness :
    c3cfg.get_delay 0 (1 / 2) ≤ 5 / 4 * c3cfg.max_delay ∧
      c3cfg.rawDelay 0 ≤ c3cfg.max_delay ∧ c3cfg.rawDelay 0 ≤ c3cfg.rawDelay 1 :=
  retry_delay_bounds c3cfg c3cfg_valid 0 1 (by norm_num) (1 / 2) (by norm_num) (by norm_num)

/-- config.py RateLimitConfig. -/
structure RateLimitConfig where
  max_requests : ℕ
  window_seconds : ℕ
  enabled : Bool

/-- The constraints enforced by RateLimitConfig.__post_init__. -/
def RateLimitConfig.Valid (c : RateLimitConfig) : Prop :=
  0 < c.max_requests ∧ 0 < c.window_seconds

/-- refill_rate computed in TokenBucketRateLimiter.__init__:
max_requests / window_seconds tokens per second. -/
def RateLimitConfig.refill_rate (c : RateLimitConfig) : ℚ :=
  (c.max_requests : ℚ) / (c.window_seconds : ℚ)

/-- The mutable state of TokenBucketRateLimiter: the tokens float and the
last_refill timestamp. -/
structure TBState where
  tokens : ℚ
  last_refill : ℚ
deriving DecidableEq

/-- rate_limiter.py TokenBucketRateLimiter._refill_tokens observed at clock
reading `now`: add elapsed * refill_rate tokens capped at max_requests and
advance last_refill. -/
def refillTokens (cap rate : ℚ) (s : TBState) (now : ℚ) : TBState :=
  ⟨min (s.tokens + (now - s.last_refill) * rate) cap, now⟩

/-- The number of tokens a refill at instant t would leave in the bucket:
the observable availability of the bucket at t. -/
def availableAt (cap rate : ℚ) (s : TBState) (t : ℚ) : ℚ :=
  min (s.tokens + (t - s.last_refill) * rate) cap

/-- One primitive mutation of the token-bucket state, as performed inside
acquire / acquire_async / get_available_tokens / get_wait_time: either a bare
refill, or a refill followed by the conditional subtraction of the requested
cost when enough tokens are available (the body of one acquire loop
iteration). -/
inductive TBOp where
  | refill : ℚ → TBOp
  | tryAcquire : ℕ → ℚ → TBOp

/-- The clock reading at which an operation happens. -/
def TBOp.time : TBOp → ℚ
  | .refill t => t
  | .tryAcquire _ t => t

/-- Apply one token-bucket operation to the state. -/
def tbStep (cap rate : ℚ) (s : TBState) : TBOp → TBState
  | .refill now => refillTokens cap rate s now
  | .tryAcquire cost now =>
    let s1 := refillTokens cap rate s now
    if (cost : ℚ) ≤ s1.tokens then ⟨s1.tokens - (cost : ℚ), s1.last_refill⟩ else s1

/-- Run a sequence of token-bucket operations. -/
def tbRun (cap rate : ℚ) (s : TBState) (ops : List TBOp) : TBState :=
  ops.foldl (tbStep cap rate) s

/-- The clock never runs backwards: each operation's reading is at least the
previous one, and the first is at least the state's last_refill stamp. -/
def TimesMono (t0 : ℚ) (ops : List TBOp) : Prop :=
  List.Chain (· ≤ ·) t0 (ops.map TBOp.time)

/-- C5: along any sequence of refills and acquisitions performed under a
monotone clock, the token count stays between 0 and the capacity: a refill
caps at capacity, and a granted acquire subtracts no more than what is
present. -/
lemma tbStep_inv (cap rate : ℚ) (hcap : 0 ≤ cap) (hrate : 0 ≤ rate) (s : TBState)
    (h0 : 0 ≤ s.tokens) (op : TBOp) (hle : s.last_refill ≤ op.time) :
    0 ≤ (tbStep cap rate s op).tokens ∧ (tbStep cap rate s op).tokens ≤ cap ∧
      (tbStep cap rate s op).last_refill = op.time := by
  cases op with
  | refill now =>
    simp only [TBOp.time] at hle
    have hmul : 0 ≤ (now - s.last_refill) * rate := mul_nonneg (by linarith) hrate
    exact ⟨le_min (by linarith) hcap, min_le_right _ _, rfl⟩
  | tryAcquire cost now =>
    simp only [TBOp.time] at hle
    have hmul : 0 ≤ (now - s.last_refill) * rate := mul_nonneg (by linarith) hrate
    have hcnn : (0 : ℚ) ≤ (cost : ℚ) := Nat.cast_nonneg cost
    have hmin0 : 0 ≤ min (s.tokens + (now - s.last_refill) * rate) cap :=
      le_min (by linarith) hcap
    have hminc : min (s.tokens + (now - s.last_refill) * rate) cap ≤ cap := min_le_right _ _
    simp only [tbStep, refillTokens]
    by_cases hgr : (cost : ℚ) ≤ min (s.tokens + (now - s.last_refill) * rate) cap
    · rw [if_pos hgr]
      refine ⟨?_, ?_, rfl⟩ <;> (dsimp only; linarith)
    · rw [if_neg hgr]
      exact ⟨hmin0, hminc, rfl⟩

theorem tokenBucket_invariant (cap rate : ℚ) (hcap : 0 ≤ cap) (hrate : 0 ≤ rate)
    (ops : List TBOp) (s : TBState) (h0 : 0 ≤ s.tokens) (h1 : s.tokens ≤ cap)
    (ht : TimesMono s.last_refill ops) :
    0 ≤ (tbRun cap rate s ops).tokens ∧ (tbRun cap rate s ops).tokens ≤ cap := by
  induction ops generalizing s with
  | nil => exact ⟨h0, h1⟩
  | cons op rest ih =>
    unfold TimesMono at ht
    rw [List.map_cons, List.chain_cons] at ht
    obtain ⟨hle, hchain⟩ := ht
    obtain ⟨k0, k1, klr⟩ := tbStep_inv cap rate hcap hrate s h0 op hle
    have hrw : tbRun cap rate s (op :: rest) = tbRun cap rate (tbStep cap rate s op) rest := rfl
    rw [hrw]
    refine ih (tbStep cap rate s op) k0 k1 ?_
    unfold TimesMono
    rw [klr]
    exact hchain

/-- Witness for tokenBucket_invariant: a bucket of capacity 2 at rate 1,
starting full, across a refill and two acquisitions. -/
theorem tokenBucket_invariant_witness :
    0 ≤ (tbRun 2 1 ⟨2, 0⟩ [TBOp.refill 1, TBOp.tryAcquire 1 2, TBOp.tryAcquire 2 2]).tokens ∧
      (tbRun 2 1 ⟨2, 0⟩ [TBOp.refill 1, TBOp.tryAcquire 1 2, TBOp.tryAcquire 2 2]).tokens ≤ 2 :=
  tokenBucket_invariant 2 1 (by norm_num) (by norm_num) _ ⟨2, 0⟩ (by norm_num) (by norm_num)
    (by simp [TimesMono, TBOp.time])

/-- Result of one TokenBucketRateLimiter.acquire call: `ok b s` is a normal
return of the boolean b with final limiter state s, `exc ra s` is a raised
RateLimitExceededError carrying retry_after ra. -/
inductive AcqRes where
  | ok : Bool → TBState → AcqRes
  | exc : ℕ → TBState → AcqRes
deriving DecidableEq

/-- The while-True loop of TokenBucketRateLimiter.acquire. `times` lists the
successive clock readings, one per loop iteration; every iteration first
refills, grants when enough tokens are present, otherwise raises when not
blocking, returns False when a timeout budget has elapsed, and otherwise
sleeps and loops. `none` means the loop had not returned when the reading
list ran out. -/
def acquireGo (cap rate : ℚ) (cost : ℕ) (block : Bool) (timeout : Option ℚ)
    (startTime : ℚ) (window : ℕ) : List ℚ → TBState → Option AcqRes
  | [], _ => none
  | now :: rest, s =>
    let s1 := refillTokens cap rate s now
    if (cost : ℚ) ≤ s1.tokens then
      some (.ok true ⟨s1.tokens - (cost : ℚ), s1.last_refill⟩)
    else if block = false then
      some (.exc window s1)
    else
      match timeout with
      | some t =>
        if t ≤ now - startTime then some (.ok false s1)
        else acquireGo cap rate cost block timeout startTime window rest s1
      | none => acquireGo cap rate cost block timeout startTime window rest s1

/-- rate_limiter.py TokenBucketRateLimiter.acquire, including the enabled
gate (a disabled limiter grants immediately without touching state) and the
retry_after = int(window_seconds) carried by the non-blocking failure. -/
def TokenBucketRateLimiter.acquire (cfg : RateLimitConfig) (cost : ℕ) (block : Bool)
    (timeout : Option ℚ) (startTime : ℚ) (times : List ℚ) (s : TBState) : Option AcqRes :=
  if cfg.enabled = false then some (.ok true s)
  else acquireGo cfg.max_requests cfg.refill_rate cost block timeout startTime
    cfg.window_seconds times s

/-- A refill never changes the observable availability of the bucket at any
instant at or after the refill. -/
lemma availableAt_refill (cap rate : ℚ) (hrate : 0 ≤ rate) (s : TBState) (now t : ℚ)
    (ht : now ≤ t) :
    availableAt cap rate (refillTokens cap rate s now) t = availableAt cap rate s t := by
  unfold availableAt refillTokens
  dsimp only
  have harg : s.tokens + (now - s.last_refill) * rate + (t - now) * rate =
      s.tokens + (t - s.last_refill) * rate := by ring
  rcases le_or_lt (s.tokens + (now - s.last_refill) * rate) cap with hca | hca
  · rw [min_eq_left hca, harg]
  · have h2 : 0 ≤ (t - now) * rate := mul_nonneg (by linarith) hrate
    rw [min_eq_right hca.le]
    rw [min_eq_right (by linarith), min_eq_right (by linarith)]

/-- C4 (amended): a blocking acquire with a timeout budget never raises, and
whenever it returns False on timeout no tokens were consumed: the observable
availability of the bucket at any instant after the run is exactly as if the
call had never been made (the raw tokens and last_refill fields are merely
advanced by refill bookkeeping). -/
theorem tokenBucket_timeout_frame (cap rate : ℚ) (cost : ℕ) (tau startTime : ℚ)
    (window : ℕ) (times : List ℚ) (s : TBState) (hrate : 0 ≤ rate) (res : AcqRes)
    (hres : acquireGo cap rate cost true (some tau) startTime window times s = some res) :
    (∀ ra s'', res ≠ .exc ra s'') ∧
      (∀ s', res = .ok false s' → ∀ t, (∀ u ∈ times, u ≤ t) →
        availableAt cap rate s' t = availableAt cap rate s t) := by
  induction times generalizing s with
  | nil => simp [acquireGo] at hres
  | cons now rest ih =>
    rw [acquireGo] at hres
    by_cases hgr : (cost : ℚ) ≤ (refillTokens cap rate s now).tokens
    · rw [if_pos hgr] at hres
      obtain rfl : AcqRes.ok true ⟨(refillTokens cap rate s now).tokens - (cost : ℚ),
          (refillTokens cap rate s now).last_refill⟩ = res := by
        simpa using hres
      exact ⟨fun _ _ h => (by cases h), fun s' h => (by cases h)⟩
    · rw [if_neg hgr] at hres
      simp only [Bool.true_eq_false, if_false] at hres
      by_cases hto : tau ≤ now - startTime
      · rw [if_pos hto] at hres
        obtain rfl : AcqRes.ok false (refillTokens cap rate s now) = res := by
          simpa using hres
        refine ⟨fun _ _ h => (by cases h), fun s' h t htle => ?_⟩
        obtain rfl : refillTokens cap rate s now = s' := by
          cases h; rfl
        exact availableAt_refill cap rate hrate s now t (htle now (by simp))
      · rw [if_neg hto] at hres
        obtain ⟨hnoexc, hfr⟩ := ih (refillTokens cap rate s now) hres
        refine ⟨hnoexc, fun s' h t htle => ?_⟩
        have h1 := hfr s' h t (fun u hu => htle u (by simp [hu]))
        rw [h1]
        exact availableAt_refill cap rate hrate s now t (htle now (by simp))

/-- Witness for tokenBucket_timeout_frame: capacity 10, rate 1, an empty
bucket stamped at 0, a request for 5 tokens starting at time 1 with a
2-second budget; the run times out at time 3 and observable availability
at time 4 is unchanged. -/
theorem tokenBucket_timeout_frame_witness :
    acquireGo 10 1 5 true (some 2) 1 10 [1, 2, 3] ⟨0, 0⟩ =
        some (.ok false ⟨3, 3⟩) ∧
      availableAt 10 1 ⟨3, 3⟩ 4 = availableAt 10 1 ⟨0, 0⟩ 4 := by
  have h : acquireGo 10 1 5 true (some 2) 1 10 [1, 2, 3] ⟨0, 0⟩ =
      some (.ok false ⟨3, 3⟩) := by
    norm_num [acquireGo, refillTokens]
  refine ⟨h, ?_⟩
  exact (tokenBucket_timeout_frame 10 1 5 2 1 10 [1, 2, 3] ⟨0, 0⟩ (by norm_num)
    (.ok false ⟨3, 3⟩) h).2 ⟨3, 3⟩ rfl 4 (by intro u hu; fin_cases hu <;> norm_num)

/-- C4 counterexample: in the run above the acquire call times out and returns
False, but the limiter's raw shared state (tokens, last_refill) is not left as
it was before the call: the refill bookkeeping moved it from (0, 0) to (3, 3),
so the fields are not exactly as if the attempt had never been made. -/
theorem tokenBucket_timeout_state_changed :
    acquireGo 10 1 5 true (some 2) 1 10 [1, 2, 3] ⟨0, 0⟩ =
        some (.ok false ⟨3, 3⟩) ∧
      (⟨3, 3⟩ : TBState) ≠ ⟨0, 0⟩ := by
  constructor
  · norm_num [acquireGo, refillTokens]
  · intro h
    cases h

/-- C7: when the limiter is enabled and a non-blocking acquire still lacks
tokens after the refill, the call raises RateLimitExceededError whose
retry_after is exactly the configured window_seconds, and the final state is
exactly the refill of the prior state: no tokens are consumed by the failed
attempt. -/
theorem tokenBucket_nonblocking_raise (cfg : RateLimitConfig) (cost : ℕ)
    (timeout : Option ℚ) (startTime now : ℚ) (rest : List ℚ) (s : TBState)
    (hen : cfg.enabled = true)
    (hlt : (refillTokens (cfg.max_requests : ℚ) cfg.refill_rate s now).tokens < (cost : ℚ)) :
    TokenBucketRateLimiter.acquire cfg cost false timeout startTime (now :: rest) s =
      some (.exc cfg.window_seconds
        (refillTokens (cfg.max_requests : ℚ) cfg.refill_rate s now)) := by
  unfold TokenBucketRateLimiter.acquire
  rw [hen]
  simp only [Bool.true_eq_false, if_false]
  rcases timeout with _ | t <;>
    (rw [acquireGo]; rw [if_neg (not_le.mpr hlt)]; rfl)

/-- Witness for tokenBucket_nonblocking_raise: 2 requests per 60 seconds, an
empty bucket stamped at 0, a non-blocking request for 1 token at time 0. -/
theorem tokenBucket_nonblocking_raise_witness :
    TokenBucketRateLimiter.acquire ⟨2, 60, true⟩ 1 false none 0 [0] ⟨0, 0⟩ =
      some (.exc 60 (refillTokens 2 (RateLimitConfig.refill_rate ⟨2, 60, true⟩) ⟨0, 0⟩ 0)) :=
  tokenBucket_nonblocking_raise ⟨2, 60, true⟩ 1 none 0 0 [] ⟨0, 0⟩ rfl
    (by norm_num [refillTokens, RateLimitConfig.refill_rate])

/-- C10, non-termination side: with a request of strictly more than the
capacity, every refill leaves at most capacity tokens, so the grant condition
of a blocking acquire without timeout is never met and the loop never returns,
whatever the clock does. -/
lemma acquireGo_overcap_loops (cap rate : ℚ) (cost : ℕ) (startTime : ℚ) (window : ℕ)
    (hover : cap < (cost : ℚ)) :
    ∀ (times : List ℚ) (s : TBState),
      acquireGo cap rate cost true none startTime window times s = none := by
  intro times
  induction times with
  | nil => intro s; rfl
  | cons now rest ih =>
    intro s
    rw [acquireGo]
    have hgr : ¬ ((cost : ℚ) ≤ (refillTokens cap rate s now).tokens) := by
      have : (refillTokens cap rate s now).tokens ≤ cap := min_le_right _ _
      push_neg
      linarith
    rw [if_neg hgr]
    simpa using ih (refillTokens cap rate s now)

/-- C10, termination side helper: once the schedule reaches an instant whose
observable availability covers the cost, the blocking no-timeout acquire
grants. -/
lemma acquireGo_grants (cap rate : ℚ) (cost : ℕ) (startTime : ℚ) (window : ℕ)
    (hrate : 0 ≤ rate) :
    ∀ (times : List ℚ) (s : TBState),
      List.Pairwise (· ≤ ·) times →
      (∃ u ∈ times, (cost : ℚ) ≤ availableAt cap rate s u) →
      ∃ s', acquireGo cap rate cost true none startTime window times s =
        some (.ok true s') := by
  intro times
  induction times with
  | nil =>
    intro s _ hu
    obtain ⟨u, hu, -⟩ := hu
    exact absurd hu (List.not_mem_nil u)
  | cons now rest ih =>
    intro s hpw hu
    rw [acquireGo]
    by_cases hgr : (cost : ℚ) ≤ (refillTokens cap rate s now).tokens
    · exact ⟨_, by rw [if_pos hgr]⟩
    · rw [if_neg hgr]
      simp only [Bool.true_eq_false, if_false]
      obtain ⟨u, humem, huav⟩ := hu
      rcases List.mem_cons.mp humem with rfl | humem'
      · exact absurd (show (cost : ℚ) ≤ (refillTokens cap rate s u).tokens from huav) hgr
      · have hnowle : now ≤ u := (List.pairwise_cons.mp hpw).1 u humem'
        refine ih (refillTokens cap rate s now) (List.pairwise_cons.mp hpw).2 ⟨u, humem', ?_⟩
        rw [availableAt_refill cap rate hrate s now u hnowle]
        exact huav

/-- C10: with the limiter enabled, a blocking acquire with no timeout grants
exactly when the requested cost fits the capacity: a request above capacity
never returns on any schedule of clock readings (refill caps tokens at
capacity so the grant condition is never met), while a request within
capacity is granted as soon as some scheduled instant has refilled enough
tokens. -/
theorem tokenBucket_blocking_termination (cap rate : ℚ) (cost : ℕ) (startTime : ℚ)
    (window : ℕ) (hrate : 0 ≤ rate) :
    (cap < (cost : ℚ) →
      ∀ (times : List ℚ) (s : TBState),
        acquireGo cap rate cost true none startTime window times s = none) ∧
    ((cost : ℚ) ≤ cap →
      ∀ (times : List ℚ) (s : TBState),
        List.Pairwise (· ≤ ·) times →
        (∃ u ∈ times, (cost : ℚ) ≤ availableAt cap rate s u) →
        ∃ s', acquireGo cap rate cost true none startTime window times s =
          some (.ok true s')) := by
  constructor
  · intro hover times s
    exact acquireGo_overcap_loops cap rate cost startTime window hover times s
  · intro _ times s hpw hu
    exact acquireGo_grants cap rate cost startTime window hrate times s hpw hu

/-- Witness for tokenBucket_blocking_termination: capacity 2, rate 1. A
request for 3 tokens never returns on the schedule [0, 1]; a request for 1
token from an empty bucket stamped at 0 is granted on the schedule [5]. -/
theorem tokenBucket_blocking_termination_witness :
    acquireGo 2 1 3 true none 0 60 [0, 1] ⟨0, 0⟩ = none ∧
      ∃ s', acquireGo 2 1 1 true none 0 60 [5] ⟨0, 0⟩ = some (.ok true s') := by
  constructor
  · exact (tokenBucket_blocking_termination 2 1 3 0 60 (by norm_num)).1 (by norm_num)
      [0, 1] ⟨0, 0⟩
  · refine (tokenBucket_blocking_termination 2 1 1 0 60 (by norm_num)).2 (by norm_num)
      [5] ⟨0, 0⟩ (by simp) ⟨5, by simp, ?_⟩
    norm_num [availableAt]

/-- rate_limiter.py SlidingWindowRateLimiter._clean_old_requests: pop
timestamps from the front while they are strictly below now - window_seconds. -/
def cleanOldRequests (window now : ℚ) (reqs : List ℚ) : List ℚ :=
  reqs.dropWhile (fun t => decide (t < now - window))

/-- One observation point of the sliding-window limiter: a bare trim (as in
get_request_count), or one iteration of the acquire loop: trim, then append
the current instant when the retained count is below max_requests. -/
inductive SWOp where
  | clean : ℚ → SWOp
  | tryAcquire : ℚ → SWOp

/-- The clock reading of a sliding-window operation. -/
def SWOp.time : SWOp → ℚ
  | .clean t => t
  | .tryAcquire t => t

/-- Apply one sliding-window operation to the timestamp list. -/
def swStep (window : ℚ) (maxReq : ℕ) (reqs : List ℚ) : SWOp → List ℚ
  | .clean now => cleanOldRequests window now reqs
  | .tryAcquire now =>
    let r := cleanOldRequests window now reqs
    if r.length < maxReq then r ++ [now] else r

/-- Run a sequence of sliding-window operations from the empty deque. -/
def swRun (window : ℚ) (maxReq : ℕ) (ops : List SWOp) : List ℚ :=
  ops.foldl (swStep window maxReq) []

lemma cleanOldRequests_sublist (window now : ℚ) (reqs : List ℚ) :
    (cleanOldRequests window now reqs).Sublist reqs :=
  List.dropWhile_sublist _

lemma cleanOldRequests_mem_ge (window now : ℚ) (reqs : List ℚ)
    (hs : List.Sorted (· ≤ ·) reqs) :
    ∀ t ∈ cleanOldRequests window now reqs, now - window ≤ t := by
  induction reqs with
  | nil => intro t ht; simp [cleanOldRequests] at ht
  | cons a l ih =>
    intro t ht
    unfold cleanOldRequests at ht
    rw [List.dropWhile_cons] at ht
    simp only [decide_eq_true_eq] at ht
    by_cases ha : a < now - window
    · rw [if_pos ha] at ht
      exact ih (List.sorted_cons.mp hs).2 t ht
    · rw [if_neg ha] at ht
      rcases List.mem_cons.mp ht with rfl | htl
      · linarith [not_lt.mp ha]
      · have := (List.sorted_cons.mp hs).1 t htl
        linarith [not_lt.mp ha]

/-- The fold invariant of the sliding-window limiter: starting from a sorted
timestamp list bounded by every upcoming clock reading and of length at most
max_requests, a run of operations under a monotone clock keeps the list
sorted, bounded by c, and of length at most max_requests. -/
lemma swRun_inv (window : ℚ) (maxReq : ℕ) :
    ∀ (ops : List SWOp) (reqs : List ℚ) (c : ℚ),
      List.Sorted (· ≤ ·) reqs → (∀ t ∈ reqs, t ≤ c) → reqs.length ≤ maxReq →
      List.Pairwise (· ≤ ·) (ops.map SWOp.time) →
      (∀ u ∈ ops.map SWOp.time, u ≤ c) →
      (∀ t ∈ reqs, ∀ u ∈ ops.map SWOp.time, t ≤ u) →
      List.Sorted (· ≤ ·) (ops.foldl (swStep window maxReq) reqs) ∧
        (∀ t ∈ ops.foldl (swStep window maxReq) reqs, t ≤ c) ∧
        (ops.foldl (swStep window maxReq) reqs).length ≤ maxReq := by
  intro ops
  induction ops with
  | nil => intro reqs c h1 h2 h3 _ _ _; exact ⟨h1, h2, h3⟩
  | cons op rest ih =>
    intro reqs c h1 h2 h3 hpw hbd hcross
    rw [List.map_cons] at hpw hbd hcross
    have hopc : op.time ≤ c := hbd op.time (by simp)
    have hpw' := (List.pairwise_cons.mp hpw).2
    have hople : ∀ u ∈ rest.map SWOp.time, op.time ≤ u := (List.pairwise_cons.mp hpw).1
    have hbd' : ∀ u ∈ rest.map SWOp.time, u ≤ c := fun u hu => hbd u (by simp [hu])
    -- properties of the trimmed list
    have htrim_sub := cleanOldRequests_sublist window op.time reqs
    have htrim_sorted : List.Sorted (· ≤ ·) (cleanOldRequests window op.time reqs) :=
      h1.sublist htrim_sub
    have htrim_mem : ∀ t ∈ cleanOldRequests window op.time reqs, t ∈ reqs :=
      fun t ht => htrim_sub.mem ht
    have htrim_len : (cleanOldRequests window op.time reqs).length ≤ reqs.length :=
      htrim_sub.length_le
    have hstep_sorted : List.Sorted (· ≤ ·) (swStep window maxReq reqs op) := by
      cases op with
      | clean now => exact htrim_sorted
      | tryAcquire now =>
        simp only [swStep]
        by_cases hlen : (cleanOldRequests window now reqs).length < maxReq
        · rw [if_pos hlen]
          refine List.pairwise_append.mpr ⟨htrim_sorted, List.sorted_singleton now, ?_⟩
          intro t ht u hu
          rw [List.mem_singleton] at hu
          subst hu
          exact hcross t (htrim_mem t ht) u (by simp [SWOp.time])
        · rw [if_neg hlen]
          exact htrim_sorted
    have hstep_mem : ∀ t ∈ swStep window maxReq reqs op, t ≤ c := by
      cases op with
      | clean now =>
        intro t ht
        exact h2 t (htrim_mem t ht)
      | tryAcquire now =>
        intro t ht
        simp only [swStep] at ht
        by_cases hlen : (cleanOldRequests window now reqs).length < maxReq
        · rw [if_pos hlen] at ht
          rcases List.mem_append.mp ht with hl | hr
          · exact h2 t (htrim_mem t hl)
          · rw [List.mem_singleton] at hr
            subst hr
            exact hopc
        · rw [if_neg hlen] at ht
          exact h2 t (htrim_mem t ht)
    have hstep_len : (swStep window maxReq reqs op).length ≤ maxReq := by
      cases op with
      | clean now => exact le_trans htrim_len h3
      | tryAcquire now =>
        simp only [swStep]
        by_cases hlen : (cleanOldRequests window now reqs).length < maxReq
        · rw [if_pos hlen]
          rw [List.length_append, List.length_singleton]
          omega
        · rw [if_neg hlen]
          exact le_trans htrim_len h3
    have hstep_cross : ∀ t ∈ swStep window maxReq reqs op,
        ∀ u ∈ rest.map SWOp.time, t ≤ u := by
      cases op with
      | clean now =>
        intro t ht u hu
        exact hcross t (htrim_mem t ht) u (by simp [hu])
      | tryAcquire now =>
        intro t ht u hu
        simp only [swStep] at ht
        by_cases hlen : (cleanOldRequests window now reqs).length < maxReq
        · rw [if_pos hlen] at ht
          rcases List.mem_append.mp ht with hl | hr
          · exact hcross t (htrim_mem t hl) u (by simp [hu])
          · rw [List.mem_singleton] at hr
            subst hr
            exact hople u hu
        · rw [if_neg hlen] at ht
          exact hcross t (htrim_mem t ht) u (by simp [hu])
    have : (op :: rest).foldl (swStep window maxReq) reqs =
        rest.foldl (swStep window maxReq) (swStep window maxReq reqs op) := rfl
    rw [this]
    exact ih (swStep window maxReq reqs op) c hstep_sorted hstep_mem hstep_len
      hpw' hbd' hstep_cross

/-- C6: along any run of sliding-window operations from the empty deque under
a monotone clock, after the trim performed by the final operation every
retained timestamp lies within the closed interval from its instant minus the
window up to its instant, and the retained count never exceeds max_requests
(in particular after a successful acquisition). -/
theorem slidingWindow_invariant (window : ℚ) (maxReq : ℕ) (hw : 0 ≤ window)
    (ops : List SWOp) (op : SWOp)
    (hmono : List.Pairwise (· ≤ ·) ((ops ++ [op]).map SWOp.time)) :
    (∀ t ∈ swRun window maxReq (ops ++ [op]),
        op.time - window ≤ t ∧ t ≤ op.time) ∧
      (swRun window maxReq (ops ++ [op])).length ≤ maxReq := by
  rw [List.map_append] at hmono
  have hpw : List.Pairwise (· ≤ ·) (ops.map SWOp.time) :=
    (List.pairwise_append.mp hmono).1
  have hbd : ∀ u ∈ ops.map SWOp.time, u ≤ op.time := by
    intro u hu
    exact (List.pairwise_append.mp hmono).2.2 u hu op.time (by simp [SWOp.time])
  obtain ⟨hsorted, hmem, hlen⟩ := swRun_inv window maxReq ops [] op.time
    (List.sorted_nil) (by intro t ht; cases ht) (by simp)
    hpw hbd (by intro t ht; cases ht)
  have hrw : swRun window maxReq (ops ++ [op]) =
      swStep window maxReq (swRun window maxReq ops) op := by
    unfold swRun
    rw [List.foldl_append]
    rfl
  have htrim_mem : ∀ t ∈ cleanOldRequests window op.time (swRun window maxReq ops),
      t ∈ swRun window maxReq ops :=
    fun t ht => (cleanOldRequests_sublist window op.time _).mem ht
  have hlow := cleanOldRequests_mem_ge window op.time (swRun window maxReq ops) hsorted
  have htrim_len : (cleanOldRequests window op.time (swRun window maxReq ops)).length ≤
      (swRun window maxReq ops).length :=
    (cleanOldRequests_sublist window op.time _).length_le
  rw [hrw]
  cases op with
  | clean now =>
    refine ⟨fun t ht => ⟨hlow t ht, hmem t (htrim_mem t ht)⟩, le_trans htrim_len hlen⟩
  | tryAcquire now =>
    simp only [swStep, SWOp.time] at *
    by_cases hl : (cleanOldRequests window now (swRun window maxReq ops)).length < maxReq
    · rw [if_pos hl]
      constructor
      · intro t ht
        rcases List.mem_append.mp ht with h | h
        · exact ⟨hlow t h, hmem t (htrim_mem t h)⟩
        · rw [List.mem_singleton] at h
          subst h
          exact ⟨by linarith, le_refl _⟩
      · rw [List.length_append, List.length_singleton]
        omega
    · rw [if_neg hl]
      exact ⟨fun t ht => ⟨hlow t ht, hmem t (htrim_mem t ht)⟩, le_trans htrim_len hlen⟩

/-- Witness for slidingWindow_invariant: window 10, max_requests 2, two
granted acquisitions at times 0 and 1 followed by an attempt at time 2. -/
theorem slidingWindow_invariant_witness :
    (∀ t ∈ swRun 10 2 ([SWOp.tryAcquire 0, SWOp.tryAcquire 1] ++ [SWOp.tryAcquire 2]),
        (SWOp.tryAcquire 2).time - 10 ≤ t ∧ t ≤ (SWOp.tryAcquire 2).time) ∧
      (swRun 10 2 ([SWOp.tryAcquire 0, SWOp.tryAcquire 1] ++ [SWOp.tryAcquire 2])).length ≤ 2 :=
  slidingWindow_invariant 10 2 (by norm_num) [SWOp.tryAcquire 0, SWOp.tryAcquire 1]
    (SWOp.tryAcquire 2) (by simp [SWOp.time])

variable {V : Type}

/-- config.py CacheConfig (the pluggable backend field is fixed to the
in-memory backend, as in CacheManager.__init__ with backend=None). -/
structure CacheConfig where
  enabled : Bool
  ttl : ℤ
  max_size : ℕ

/-- The constraints enforced by CacheConfig.__post_init__. -/
def CacheConfig.Valid (c : CacheConfig) : Prop := 0 < c.ttl ∧ 0 < c.max_size

/-- cache.py CacheEntry: a value together with its absolute expiry instant. -/
structure CacheEntry (V : Type) where
  value : V
  expires_at : ℚ

/-- CacheEntry.is_expired: dead once now is at or past expires_at. -/
def CacheEntry.is_expired (e : CacheEntry V) (now : ℚ) : Bool :=
  decide (e.expires_at ≤ now)

/-- The store of the in-memory backend: per key, the insertion instant
recorded by the underlying TTLCache and the stored entry. The TTLCache's
LRU size bound does not enter the claims (they concern a single key), so it
is not part of the state. -/
def CacheStore (V : Type) : Type := String → Option (ℚ × CacheEntry V)

/-- MemoryCacheBackend.get: the backing TTLCache returns a stored item only
while now is strictly before the insertion instant plus the cache-wide
default TTL D that the backend was constructed with; the per-call ttl passed
to MemoryCacheBackend.set is ignored (TTLCache uses its default). -/
def MemoryCacheBackend.get (D : ℚ) (st : CacheStore V) (now : ℚ) (k : String) :
    Option (CacheEntry V) :=
  match st k with
  | none => none
  | some (tIns, e) => if now < tIns + D then some e else none

/-- MemoryCacheBackend.set: store the entry at the current instant. -/
def MemoryCacheBackend.set (st : CacheStore V) (now : ℚ) (k : String)
    (e : CacheEntry V) : CacheStore V :=
  fun q => if q = k then some (now, e) else st q

/-- MemoryCacheBackend.delete. -/
def MemoryCacheBackend.delete (st : CacheStore V) (k : String) : CacheStore V :=
  fun q => if q = k then none else st q

/-- cache.py CacheManager.get: absent if disabled; ask the backend; a
TTL-wrapped entry past its expires_at is deleted and reported absent;
otherwise its value is returned. Returns the possibly-updated store. -/
def CacheManager.get (cfg : CacheConfig) (st : CacheStore V) (now : ℚ) (k : String) :
    Option V × CacheStore V :=
  if cfg.enabled = false then (none, st)
  else
    match MemoryCacheBackend.get (cfg.ttl : ℚ) st now k with
    | none => (none, st)
    | some e =>
      if e.is_expired now then (none, MemoryCacheBackend.delete st k)
      else (some e.value, st)

/-- cache.py CacheManager.set: no-op if disabled; the Python idiom
ttl = ttl or config.ttl replaces both None and 0 by the default; a
non-positive effective TTL skips the write; otherwise the value is wrapped
with expires_at = now + ttl and handed to the backend. -/
def CacheManager.set (cfg : CacheConfig) (st : CacheStore V) (now : ℚ) (k : String)
    (v : V) (ttl : Option ℤ) : CacheStore V :=
  if cfg.enabled = false then st
  else
    let t : ℤ :=
      match ttl with
      | none => cfg.ttl
      | some x => if x = 0 then cfg.ttl else x
    if t ≤ 0 then st
    else MemoryCacheBackend.set st now k ⟨v, now + (t : ℚ)⟩

/-- The configuration used by the C2 counterexample: caching enabled with a
default TTL of 1 second. -/
def c2cfg : CacheConfig := ⟨true, 1, 1000⟩

/-- C2 counterexample: set a value with per-entry ttl = 3 at time 0 under a
default TTL of 1; at elapsed time 2, strictly less than the requested TTL,
get already returns absent, because MemoryCacheBackend.set ignores the
per-call TTL and the backing TTLCache evicts at its 1-second default. -/
theorem cache_get_before_ttl_absent :
    ((CacheManager.get c2cfg
        (CacheManager.set c2cfg (fun _ => none) 0 "k" (7 : ℕ) (some 3)) 2 "k").1 = none) ∧
      (2 : ℚ) < 3 := by
  constructor
  · norm_num [CacheManager.get, CacheManager.set, MemoryCacheBackend.get,
      MemoryCacheBackend.set, c2cfg]
  · norm_num

/-- C2 (amended): with caching enabled and a positive requested TTL T, a get
at elapsed time e after set(k, v, ttl = T) returns v exactly when e is below
both T and the backend's default TTL D (the in-memory backend ignores the
per-entry TTL, so the entry also dies at D), and returns absent once e
reaches either bound. -/
theorem cache_set_get_ttl (cfg : CacheConfig) (hen : cfg.enabled = true)
    (st : CacheStore V) (k : String) (v : V) (t0 e : ℚ) (T : ℤ) (hT : 0 < T) :
    (CacheManager.get cfg
        (CacheManager.set cfg st t0 k v (some T)) (t0 + e) k).1 =
      if e < min (T : ℚ) (cfg.ttl : ℚ) then some v else none := by
  unfold CacheManager.set
  rw [hen]
  simp only [Bool.true_eq_false, if_false]
  rw [if_neg (by omega : ¬ T = 0)]
  rw [if_neg (by omega : ¬ T ≤ 0)]
  unfold CacheManager.get
  rw [hen]
  simp only [Bool.true_eq_false, if_false]
  have hback : MemoryCacheBackend.get (cfg.ttl : ℚ)
      (MemoryCacheBackend.set st t0 k ⟨v, t0 + (T : ℚ)⟩) (t0 + e) k =
      if t0 + e < t0 + (cfg.ttl : ℚ) then some ⟨v, t0 + (T : ℚ)⟩ else none := by
    unfold MemoryCacheBackend.get MemoryCacheBackend.set
    simp
  rw [hback]
  by_cases hD : t0 + e < t0 + (cfg.ttl : ℚ)
  · rw [if_pos hD]
    dsimp only
    simp only [CacheEntry.is_expired, decide_eq_true_eq]
    by_cases hE : t0 + (T : ℚ) ≤ t0 + e
    · rw [if_pos hE]
      dsimp only
      have hnm : ¬ (e < min (T : ℚ) (cfg.ttl : ℚ)) := by
        intro h
        have := lt_of_lt_of_le h (min_le_left (T : ℚ) (cfg.ttl : ℚ))
        linarith
      rw [if_neg hnm]
    · rw [if_neg hE]
      dsimp only
      have hm : e < min (T : ℚ) (cfg.ttl : ℚ) :=
        lt_min (by linarith [not_le.mp hE]) (by linarith)
      rw [if_pos hm]
  · rw [if_neg hD]
    dsimp only
    have hnm : ¬ (e < min (T : ℚ) (cfg.ttl : ℚ)) := by
      intro h
      have := lt_of_lt_of_le h (min_le_right (T : ℚ) (cfg.ttl : ℚ))
      push_neg at hD
      linarith
    rw [if_neg hnm]

/-- Witness for cache_set_get_ttl: default TTL 1, requested TTL 3, read at
elapsed time one half. -/
theorem cache_set_get_ttl_witness :
    (CacheManager.get c2cfg
        (CacheManager.set c2cfg (fun _ => none) 0 "k" (7 : ℕ) (some 3)) (0 + 1/2) "k").1 =
      if (1/2 : ℚ) < min ((3 : ℤ) : ℚ) ((c2cfg.ttl : ℤ) : ℚ) then some 7 else none :=
  cache_set_get_ttl c2cfg rfl (fun _ => none) "k" 7 0 (1/2) 3 (by norm_num)

/-- The JSON-serializable parameter values passed to generate_key (the call
sites pass strings; ints and bools are included for generality). -/
inductive JVal where
  | str : String → JVal
  | int : ℤ → JVal
  | bool : Bool → JVal
deriving DecidableEq

/-- Python json rendering of one value. -/
def JVal.render : JVal → String
  | .str s => "\"" ++ s ++ "\""
  | .int n => toString n
  | .bool b => if b then "true" else "false"

/-- Python json rendering of one key/value member. -/
def renderPair (p : String × JVal) : String :=
  "\"" ++ p.1 ++ "\": " ++ p.2.render

/-- Ordering of members by key, as produced by json.dumps(-, sort_keys=True). -/
def keyLE (p q : String × JVal) : Prop := p.1 ≤ q.1

/-- Strict by-key ordering, used to identify sorted member lists. -/
def keyLT (p q : String × JVal) : Prop := p.1 < q.1

instance : DecidableRel keyLE := fun p q => inferInstanceAs (Decidable (p.1 ≤ q.1))

instance : IsTotal (String × JVal) keyLE := ⟨fun p q => le_total p.1 q.1⟩

instance : IsTrans (String × JVal) keyLE := ⟨fun _ _ _ h1 h2 => le_trans h1 h2⟩

instance : IsAntisymm (String × JVal) keyLT :=
  ⟨fun _ _ h1 h2 => absurd (lt_trans h1 h2) (lt_irrefl _)⟩

/-- json.dumps(kwargs, sort_keys=True): members sorted by key, rendered with
the default ", " and ": " separators inside braces. -/
def jsonDumpsSorted (ps : List (String × JVal)) : String :=
  "\x7b" ++ String.intercalate ", " ((ps.insertionSort keyLE).map renderPair) ++ "\x7d"

/-- cache.py CacheManager.generate_key: the prefix, a colon, and the digest of
the canonical serialization of the parameters. hashlib's md5 hexdigest is an
external collaborator and enters as the function md5hex. -/
def CacheManager.generate_key (md5hex : String → String) (pfx : String)
    (ps : List (String × JVal)) : String :=
  pfx ++ ":" ++ md5hex (jsonDumpsSorted ps)

lemma sorted_keyLT_of_nodup (l : List (String × JVal))
    (hs : List.Sorted keyLE l) (hnd : (l.map Prod.fst).Nodup) :
    List.Pairwise keyLT l := by
  have hne : List.Pairwise (fun p q : String × JVal => p.1 ≠ q.1) l :=
    List.pairwise_map.mp hnd
  exact (hs.and hne).imp (fun h => lt_of_le_of_ne h.1 h.2)

/-- Two permutations of the same member set with pairwise-distinct keys have
the same canonical sort. -/
lemma insertionSort_perm_eq (ps qs : List (String × JVal))
    (hperm : List.Perm ps qs) (hnd : (ps.map Prod.fst).Nodup) :
    ps.insertionSort keyLE = qs.insertionSort keyLE := by
  have hndq : (qs.map Prod.fst).Nodup := ((hperm.map Prod.fst).nodup_iff).mp hnd
  have hp : List.Perm (ps.insertionSort keyLE) (qs.insertionSort keyLE) :=
    ((List.perm_insertionSort keyLE ps).trans hperm).trans
      (List.perm_insertionSort keyLE qs).symm
  have hs1 : List.Pairwise keyLT (ps.insertionSort keyLE) :=
    sorted_keyLT_of_nodup _ (List.sorted_insertionSort keyLE ps)
      (((List.perm_insertionSort keyLE ps).map Prod.fst).nodup_iff.mpr hnd)
  have hs2 : List.Pairwise keyLT (qs.insertionSort keyLE) :=
    sorted_keyLT_of_nodup _ (List.sorted_insertionSort keyLE qs)
      (((List.perm_insertionSort keyLE qs).map Prod.fst).nodup_iff.mpr hndq)
  exact List.eq_of_perm_of_sorted hp hs1 hs2

/-- C8: generate_key is deterministic and order-independent over its keyword
parameters: for any digest function, any prefix and any two orderings of the
same parameter name/value pairs (names distinct, as Python keyword arguments
are), the produced keys coincide, and the key is the prefix, a colon, and the
digest of the canonical serialization. -/
theorem generate_key_order_independent (md5hex : String → String) (pfx : String)
    (ps qs : List (String × JVal)) (hperm : List.Perm ps qs)
    (hnd : (ps.map Prod.fst).Nodup) :
    CacheManager.generate_key md5hex pfx ps = CacheManager.generate_key md5hex pfx qs ∧
      CacheManager.generate_key md5hex pfx ps =
        pfx ++ ":" ++ md5hex (jsonDumpsSorted ps) := by
  refine ⟨?_, rfl⟩
  unfold CacheManager.generate_key jsonDumpsSorted
  rw [insertionSort_perm_eq ps qs hperm hnd]

/-- Witness for generate_key_order_independent on the spec's own example:
generate_key "pin" with a = 1, b = 2 in both orders. -/
theorem generate_key_order_independent_witness :
    CacheManager.generate_key id "pin" [("a", JVal.int 1), ("b", JVal.int 2)] =
        CacheManager.generate_key id "pin" [("b", JVal.int 2), ("a", JVal.int 1)] ∧
      CacheManager.generate_key id "pin" [("a", JVal.int 1), ("b", JVal.int 2)] =
        "pin" ++ ":" ++ id (jsonDumpsSorted [("a", JVal.int 1), ("b", JVal.int 2)]) :=
  generate_key_order_independent id "pin" [("a", JVal.int 1), ("b", JVal.int 2)]
    [("b", JVal.int 2), ("a", JVal.int 1)] (by decide) (by decide)

/-- One outcome of the HTTP transport (httpx), as distinguished by the
try/except arms and _handle_response of http_client.py: a timeout exception,
a network error, or a response with a status code, the parsed Retry-After
header and a parsed body. -/
inductive TransportResult (V : Type) where
  | timeout
  | networkError
  | response (status : ℕ) (retryAfter : ℕ) (body : V)

/-- The error taxonomy of exceptions.py as raised by the client paths
embedded here. -/
inductive KErr where
  | invalidPin
  | apiTimeout
  | apiError (status : Option ℕ)
  | authError
  | rateLimit (retry_after : ℕ)
deriving DecidableEq

/-- http_client.py HttpClient.post for one transport outcome, combining the
try/except arms with _handle_response: timeouts become ApiTimeoutError,
network errors ApiError, 200 returns the parsed body, 401 raises
ApiAuthenticationError, 429 RateLimitExceededError with the header value,
and any other status ApiError carrying the status code. -/
def HttpClient.post (tr : TransportResult V) : Except KErr V :=
  match tr with
  | .timeout => .error .apiTimeout
  | .networkError => .error (.apiError none)
  | .response s ra b =>
    if s = 200 then .ok b
    else if s = 401 then .error .authError
    else if s = 429 then .error (.rateLimit ra)
    else .error (.apiError (some s))

/-- An operation issued through HttpClient.post against an attempt-indexed
transport. The retry decorator built by HttpClient._create_retry_decorator
is never applied to post (nor to get, put or delete), so the method body
makes exactly one transport call, at attempt index 0, and no retry delay is
ever taken; the second component records the number of transport attempts
made. -/
def HttpClient.postOp (seq : ℕ → TransportResult V) : Except KErr V × ℕ :=
  (HttpClient.post (seq 0), 1)

/-- The transport of end-to-end scenario C: attempts 0 and 1 fail with a
timeout-class error, attempt 2 would succeed. -/
def c1Transport : ℕ → TransportResult ℕ :=
  fun n => if n < 2 then .timeout else .response 200 0 7

/-- C1: under the scenario transport that fails twice with a transient error
and would succeed on the third attempt, the operation executed through the
HTTP client does not succeed: exactly one transport attempt is made and the
timeout error propagates at once, so zero retry delays are observed, because
the retry decorator built from the retry configuration is never applied to
the request methods. -/
theorem httpClient_no_retry_on_timeout :
    HttpClient.postOp c1Transport = (Except.error KErr.apiTimeout, 1) ∧
      c1Transport 2 = TransportResult.response 200 0 7 := by
  constructor
  · rfl
  · rfl

/-- The outcome of one KraClient.verify_pin call: the returned or raised
result, the cache store, the rate-limiter state, and how many transport
calls were made. -/
structure VerifyOut (V : Type) where
  result : Except KErr V
  cache : CacheStore V
  limiter : TBState
  transportCalls : ℕ

/-- client.py KraClient.verify_pin: validate the PIN (validators.py is an
external collaborator entering as the function validate, returning the
normalized PIN or rejecting); derive the cache key; return a cached result
immediately; otherwise acquire one rate-limit token with the blocking
default and no timeout (a raise from acquire propagates), make one POST and
on success cache and return the parsed result. `now` is the instant of the
cache operations, `times` the clock readings of the acquire loop; `none`
means the acquire loop had not returned within its readings. -/
def KraClient.verify_pin (validate : String → Option String)
    (md5hex : String → String) (ccfg : CacheConfig) (rcfg : RateLimitConfig)
    (store : CacheStore V) (lim : TBState) (seq : ℕ → TransportResult V)
    (pin : String) (now startTime : ℚ) (times : List ℚ) : Option (VerifyOut V) :=
  match validate pin with
  | none => some ⟨.error .invalidPin, store, lim, 0⟩
  | some npin =>
    let key := CacheManager.generate_key md5hex "pin" [("pin_number", JVal.str npin)]
    let g := CacheManager.get ccfg store now key
    match g.1 with
    | some v => some ⟨.ok v, g.2, lim, 0⟩
    | none =>
      match TokenBucketRateLimiter.acquire rcfg 1 true none startTime times lim with
      | none => none
      | some (.exc ra lim') => some ⟨.error (.rateLimit ra), g.2, lim', 0⟩
      | some (.ok _ lim') =>
        match HttpClient.post (seq 0) with
        | .error e => some ⟨.error e, g.2, lim', 1⟩
        | .ok v => some ⟨.ok v, CacheManager.set ccfg g.2 now key v none, lim', 1⟩

lemma CacheManager.get_disabled (cfg : CacheConfig) (st : CacheStore V) (now : ℚ)
    (k : String) (he : cfg.enabled = false) :
    CacheManager.get cfg st now k = (none, st) := by
  unfold CacheManager.get
  rw [if_pos he]

lemma CacheManager.get_backend_miss (cfg : CacheConfig) (st : CacheStore V) (now : ℚ)
    (k : String) (he : cfg.enabled = true)
    (hb : MemoryCacheBackend.get (cfg.ttl : ℚ) st now k = none) :
    CacheManager.get cfg st now k = (none, st) := by
  unfold CacheManager.get
  rw [he]
  simp only [Bool.true_eq_false, if_false]
  rw [hb]

lemma CacheManager.get_backend_entry (cfg : CacheConfig) (st : CacheStore V) (now : ℚ)
    (k : String) (entry : CacheEntry V) (he : cfg.enabled = true)
    (hb : MemoryCacheBackend.get (cfg.ttl : ℚ) st now k = some entry) :
    CacheManager.get cfg st now k =
      if entry.is_expired now = true then (none, MemoryCacheBackend.delete st k)
      else (some entry.value, st) := by
  unfold CacheManager.get
  rw [he]
  simp only [Bool.true_eq_false, if_false]
  rw [hb]

lemma CacheManager.get_hit_store (cfg : CacheConfig) (st : CacheStore V) (now : ℚ)
    (k : String) (v : V) (h : (CacheManager.get cfg st now k).1 = some v) :
    (CacheManager.get cfg st now k).2 = st := by
  cases he : cfg.enabled with
  | false =>
    rw [CacheManager.get_disabled cfg st now k he] at h
    cases h
  | true =>
    cases hb : MemoryCacheBackend.get (cfg.ttl : ℚ) st now k with
    | none =>
      rw [CacheManager.get_backend_miss cfg st now k he hb] at h
      cases h
    | some entry =>
      rw [CacheManager.get_backend_entry cfg st now k entry he hb] at h ⊢
      by_cases hexp : entry.is_expired now = true
      · rw [if_pos hexp] at h
        cases h
      · rw [if_neg hexp]

/-- C9: when the cache lookup for a verify_pin call hits, the cached value is
returned immediately: the cache store is untouched, the rate-limiter state is
returned unchanged (no token consumed), and zero transport calls are made. -/
theorem verify_pin_cache_hit (validate : String → Option String)
    (md5hex : String → String) (ccfg : CacheConfig) (rcfg : RateLimitConfig)
    (store : CacheStore V) (lim : TBState) (seq : ℕ → TransportResult V)
    (pin npin : String) (now startTime : ℚ) (times : List ℚ) (v : V)
    (hval : validate pin = some npin)
    (hhit : (CacheManager.get ccfg store now
        (CacheManager.generate_key md5hex "pin" [("pin_number", JVal.str npin)])).1 =
      some v) :
    KraClient.verify_pin validate md5hex ccfg rcfg store lim seq pin now startTime times =
      some ⟨.ok v, store, lim, 0⟩ := by
  unfold KraClient.verify_pin
  rw [hval]
  have hst := CacheManager.get_hit_store ccfg store now
    (CacheManager.generate_key md5hex "pin" [("pin_number", JVal.str npin)]) v hhit
  dsimp only
  rw [hhit]
  dsimp only
  rw [hst]

/-- Witness for verify_pin_cache_hit: a store holding a live entry under the
derived key, probed at time 0. -/
theorem verify_pin_cache_hit_witness :
    KraClient.verify_pin (fun p => some p) id c2cfg ⟨2, 60, true⟩
        (fun q => if q = CacheManager.generate_key id "pin"
            [("pin_number", JVal.str "P051234567A")] then some (0, ⟨(7 : ℕ), 1⟩) else none)
        ⟨2, 0⟩ (fun _ => TransportResult.timeout) "P051234567A" 0 0 [] =
      some ⟨.ok 7, (fun q => if q = CacheManager.generate_key id "pin"
            [("pin_number", JVal.str "P051234567A")] then some (0, ⟨(7 : ℕ), 1⟩) else none),
        ⟨2, 0⟩, 0⟩ := by
  refine verify_pin_cache_hit (fun p => some p) id c2cfg ⟨2, 60, true⟩ _ ⟨2, 0⟩ _
    "P051234567A" "P051234567A" 0 0 [] 7 rfl ?_
  unfold CacheManager.get MemoryCacheBackend.get
  norm_num [c2cfg, CacheEntry.is_expired]

end KraConnect
